import Mathlib

/-!
# PixelForge: pixel accessors, clamp macros, enumerations, matrix stack and window counter

A shallow embedding of the parts of `src/pixelforge.h` and
`examples/SDL2/SDL2_common.h` that the specification's testable statements refer to.

* Bytes (`PFubyte`) are natural numbers below 256; a store into a byte array reduces mod 256.
* `PFsizei` arithmetic is arithmetic mod 2^32.
* `PFint` / `int` values are integers in the range -2^31 .. 2^31 - 1; the bitwise operators act
  on the 32-bit two's complement pattern of their operands.
* A pixel buffer is a list of bytes; an access outside the buffer has no defined result and is
  `none`.
-/

namespace PixelForge

/-! ## Machine integers -/

/-- Reduction to `uint32_t` (`PFsizei`, `PFuint`). -/
def u32 (n : Nat) : Nat := n % 2 ^ 32

/-- The 32-bit two's complement bit pattern of an integer. -/
def toU32 (x : Int) : Nat := (x % 4294967296).toNat

/-- The signed value of a 32-bit two's complement bit pattern. -/
def ofU32 (u : Nat) : Int := if u < 2147483648 then (u : Int) else (u : Int) - 4294967296

/-- Reduction of an integer to the `int32_t` range (two's complement wraparound). -/
def wrap32 (x : Int) : Int := ofU32 (toU32 x)

/-- Bitwise and of two `int32_t` values (C operator `&`). -/
def and32 (a b : Int) : Int := ofU32 (toU32 a &&& toU32 b)

/-- Bitwise or of two `int32_t` values (C operator `|`). -/
def or32 (a b : Int) : Int := ofU32 (toU32 a ||| toU32 b)

/-- Arithmetic right shift of an `int32_t` value (C operator `>>` on a signed operand). -/
def sar32 (a : Int) (s : Nat) : Int := a >>> s

/-- Bitwise complement of a 32-bit word (C operator `~`). -/
def compl32 (x : Nat) : Nat := 4294967295 - x % 4294967296

/-- Conversion of an `int` to `PFubyte` (`uint8_t`): the value mod 256. -/
def toPFubyte (x : Int) : Nat := (x % 256).toNat

/-! ## Constants and macros of `pixelforge.h` -/

/-- The macro `PF_MAX_MATRIX_STACK_SIZE` (pixelforge.h line 57). -/
def PF_MAX_MATRIX_STACK_SIZE : Nat := 8

/-- The macro `PF_MAX_LIGHTS` (pixelforge.h line 61). -/
def PF_MAX_LIGHTS : Nat := 8

/-- The macro `MAX_0(n)`, defined as `(n & -(n >= 0))` (pixelforge.h line 92). -/
def MAX_0 (n : Int) : Int := and32 n (wrap32 (-(if 0 ≤ n then 1 else 0)))

/-- The macro `MIN_255(n)`, defined as `(n | ((255 - n) >> 31))` (pixelforge.h line 88).
The subtraction is reduced to 32 bits. -/
def MIN_255 (n : Int) : Int := or32 n (sar32 (wrap32 (255 - n)) 31)

/-! ## Enumerations of `pixelforge.h` -/

/-- The enumeration `PFstate` (pixelforge.h lines 133-139). -/
inductive PFstate where
  | PF_TEXTURE_2D
  | PF_DEPTH_TEST
  | PF_WIRE_MODE
  | PF_CULL_FACE
  | PF_LIGHTING
deriving DecidableEq

/-- The numeric value of a `PFstate` enumerator. -/
def PFstate.val : PFstate → Nat
  | .PF_TEXTURE_2D => 0x01
  | .PF_DEPTH_TEST => 0x02
  | .PF_WIRE_MODE => 0x04
  | .PF_CULL_FACE => 0x08
  | .PF_LIGHTING => 0x10

/-- Position of the single bit set in the value of a `PFstate` enumerator (used in proofs). -/
def PFstate.bitIndex : PFstate → Nat
  | .PF_TEXTURE_2D => 0
  | .PF_DEPTH_TEST => 1
  | .PF_WIRE_MODE => 2
  | .PF_CULL_FACE => 3
  | .PF_LIGHTING => 4

/-- The enumeration `PFerrcode` (pixelforge.h lines 143-149). -/
inductive PFerrcode where
  | PF_NO_ERROR
  | PF_INVALID_ENUM
  | PF_STACK_OVERFLOW
  | PF_INVALID_OPERATION
  | PF_ERROR_OUT_OF_MEMORY
deriving DecidableEq

/-- The enumeration `PFmatrixmode` (pixelforge.h lines 165-168). -/
inductive PFmatrixmode where
  | PF_MODELVIEW
  | PF_PROJECTION
deriving DecidableEq

/-- The enumeration `PFdrawmode` (pixelforge.h lines 170-175). -/
inductive PFdrawmode where
  | PF_POINTS
  | PF_LINES
  | PF_TRIANGLES
  | PF_QUADS
deriving DecidableEq

/-- The numeric value of a `PFdrawmode` enumerator. -/
def PFdrawmode.val : PFdrawmode → Nat
  | .PF_POINTS => 1
  | .PF_LINES => 2
  | .PF_TRIANGLES => 3
  | .PF_QUADS => 4

/-- The enumeration `PFlights` (pixelforge.h lines 183-193): nine enumerators. -/
inductive PFlights where
  | PF_LIGHT0
  | PF_LIGHT1
  | PF_LIGHT2
  | PF_LIGHT3
  | PF_LIGHT4
  | PF_LIGHT5
  | PF_LIGHT6
  | PF_LIGHT7
  | PF_LIGHT8
deriving DecidableEq

/-- The numeric value of a `PFlights` enumerator: `PF_LIGHT0 = 0`, each following enumerator
one more than its predecessor. -/
def PFlights.val : PFlights → Nat
  | .PF_LIGHT0 => 0
  | .PF_LIGHT1 => 1
  | .PF_LIGHT2 => 2
  | .PF_LIGHT3 => 3
  | .PF_LIGHT4 => 4
  | .PF_LIGHT5 => 5
  | .PF_LIGHT6 => 6
  | .PF_LIGHT7 => 7
  | .PF_LIGHT8 => 8

/-- The structure `PFcolor` (pixelforge.h lines 217-219): four `PFubyte` channels. -/
structure PFcolor where
  r : Nat
  g : Nat
  b : Nat
  a : Nat
deriving DecidableEq

/-- Every channel of the colour is an 8-bit value. -/
def PFcolor.valid (c : PFcolor) : Prop :=
  c.r < 256 ∧ c.g < 256 ∧ c.b < 256 ∧ c.a < 256

instance (c : PFcolor) : Decidable c.valid := by
  unfold PFcolor.valid; infer_instance

/-! ## Pixel getter and setter of `SDL2_common.h` -/

/-- Read of `((PFubyte*)pixels)[i]`. -/
def loadByte (pixels : List Nat) (i : Nat) : Option Nat := pixels[i]?

/-- Write of `((PFubyte*)pixels)[i] = v`. -/
def storeByte (pixels : List Nat) (i : Nat) (v : Nat) : Option (List Nat) :=
  if i < pixels.length then some (pixels.set i (v % 256)) else none

/-- The function `PF_GetPixel` (SDL2_common.h lines 50-58): red is read from byte
`offset*4 + 2`, green from `offset*4 + 1`, blue from `offset*4`, alpha from `offset*4 + 3`;
the index arithmetic is `PFsizei` arithmetic. -/
def PF_GetPixel (pixels : List Nat) (offset : Nat) : Option PFcolor := do
  let r ← loadByte pixels (u32 (u32 (offset * 4) + 2))
  let g ← loadByte pixels (u32 (u32 (offset * 4) + 1))
  let b ← loadByte pixels (u32 (offset * 4))
  let a ← loadByte pixels (u32 (u32 (offset * 4) + 3))
  pure ⟨r, g, b, a⟩

/-- The function `PF_SetPixel` (SDL2_common.h lines 60-66): four byte stores, in the order
blue, green, red, alpha. -/
def PF_SetPixel (pixels : List Nat) (offset : Nat) (color : PFcolor) : Option (List Nat) := do
  let p0 ← storeByte pixels (u32 (offset * 4)) color.b
  let p1 ← storeByte p0 (u32 (u32 (offset * 4) + 1)) color.g
  let p2 ← storeByte p1 (u32 (u32 (offset * 4) + 2)) color.r
  storeByte p2 (u32 (u32 (offset * 4) + 3)) color.a

/-! ## Window management of `SDL2_common.h` -/

/-- The SDL functions called by `Window_Create` and `Window_Destroy` on their successful
paths. -/
inductive SDLCall where
  | SDL_VideoInit
  | SDL_CreateWindow
  | SDL_GetWindowSurface
  | SDL_DestroyWindow
  | SDL_VideoQuit
deriving DecidableEq

/-- The structure `Window` (SDL2_common.h lines 18-21); a pointer is `none` when `NULL`. -/
structure Window where
  sdlWin : Option Nat
  surface : Option Nat
deriving DecidableEq

/-- What the SDL library returns to one call of `Window_Create`: the return value of
`SDL_VideoInit`, and the pointers returned by `SDL_CreateWindow` and
`SDL_GetWindowSurface`. -/
structure SDLResults where
  videoInit : Int
  window : Option Nat
  surface : Option Nat

/-- The static variable `windowCounter` (SDL2_common.h line 70) together with the state of the
SDL video subsystem: initialised by a successful `SDL_VideoInit`, shut down by
`SDL_VideoQuit`. -/
structure WindowState where
  windowCounter : Int
  videoInitialised : Bool
deriving DecidableEq

/-- The function `Window_Create` (SDL2_common.h lines 72-104). The result is `none` when the
function calls `exit(1)`. `windowCounter++` always increments (an `int`, reduced to 32 bits);
`SDL_VideoInit` is called only when the old value is 0, since `&&` short-circuits. The result
carries the new window, the new state and the SDL calls made. -/
def Window_Create (env : SDLResults) (s : WindowState) :
    Option (Window × WindowState × List SDLCall) :=
  let old := s.windowCounter
  let counter := wrap32 (old + 1)
  if old = 0 ∧ env.videoInit < 0 then none
  else
    let video := if old = 0 then true else s.videoInitialised
    let calls := if old = 0 then [SDLCall.SDL_VideoInit] else []
    match env.window with
    | none => none
    | some window =>
      match env.surface with
      | none => none
      | some surface =>
        some (⟨some window, some surface⟩, ⟨counter, video⟩,
          calls ++ [SDLCall.SDL_CreateWindow, SDLCall.SDL_GetWindowSurface])

/-- The function `Window_Destroy` (SDL2_common.h lines 106-116): destroys the window, clears
both pointers, decrements `windowCounter` and calls `SDL_VideoQuit` when the new value is 0. -/
def Window_Destroy (_window : Window) (s : WindowState) :
    Window × WindowState × List SDLCall :=
  let counter := wrap32 (s.windowCounter - 1)
  if counter = 0 then
    (⟨none, none⟩, ⟨counter, false⟩, [SDLCall.SDL_DestroyWindow, SDLCall.SDL_VideoQuit])
  else
    (⟨none, none⟩, ⟨counter, s.videoInitialised⟩, [SDLCall.SDL_DestroyWindow])

/-- One call of the window API. -/
inductive WindowOp where
  | create (env : SDLResults)
  | destroy (window : Window)

/-- Whether the call is a `Window_Create`. -/
def WindowOp.isCreate : WindowOp → Bool
  | .create _ => true
  | .destroy _ => false

/-- The new state and the SDL calls of one call of the window API; `none` when the process
exits. -/
def windowStep (op : WindowOp) (s : WindowState) : Option (WindowState × List SDLCall) :=
  match op with
  | .create env => (Window_Create env s).map (fun r => r.2)
  | .destroy w => some (Window_Destroy w s).2

/-- The state after a sequence of calls; `none` when one of them exits. -/
def windowRun : List WindowOp → WindowState → Option WindowState
  | [], s => some s
  | op :: ops, s =>
    match windowStep op s with
    | none => none
    | some (s1, _) => windowRun ops s1

/-- Number of creates minus number of destroys: the windows created and not yet destroyed. -/
def liveWindows : List WindowOp → Int
  | [] => 0
  | op :: ops => (if op.isCreate then 1 else -1) + liveWindows ops

/-- The initial state: `windowCounter = 0`, video subsystem not initialised. -/
def windowInit : WindowState := ⟨0, false⟩

/-- SDL results of a successful `Window_Create`. -/
def sdlOk : SDLResults := ⟨0, some 1, some 2⟩

/-! ## Blending (declared in `pixelforge.h`, implementation file not among the sources) -/

/-- Modelled from the spec: re-clamping of a combined channel to the valid range 0..255
(section 4.2, "re-clamped to the valid range after combination"). -/
def clampByte (x : Nat) : Nat := if x > 255 then 255 else x

/-- Modelled from the spec: linear interpolation of one channel by the source alpha, in
0..255 integer space (section 4.2, "standard alpha blending (linear interpolation by source
alpha)"). -/
def lerpChannel (s d alpha : Nat) : Nat :=
  clampByte ((s * alpha + d * (255 - alpha)) / 255)

/-- Modelled from the spec: the body of `pfBlendDisabled` is missing; section 4.2 says the
disabled policy returns the source unchanged. -/
def pfBlendDisabled (source _destination : PFcolor) : PFcolor := source

/-- Modelled from the spec: the body of `pfBlendAlpha` is missing; section 4.2 describes it as
linear interpolation between destination and source by the source alpha, per channel. -/
def pfBlendAlpha (source destination : PFcolor) : PFcolor :=
  { r := lerpChannel source.r destination.r source.a
    g := lerpChannel source.g destination.g source.a
    b := lerpChannel source.b destination.b source.a
    a := lerpChannel source.a destination.a source.a }

/-! ## Matrix stack (declared in `pixelforge.h`, implementation file not among the sources) -/

/-- Modelled from the spec: a matrix stack of one mode (sections 3 and 4.3): the current top
matrix and the matrices saved below it. The matrix type is a parameter: push and pop only copy
matrices. -/
structure MatrixStack (M : Type) where
  top : M
  saved : List M

/-- Number of matrices the stack holds. -/
def MatrixStack.depth {M : Type} (s : MatrixStack M) : Nat := s.saved.length + 1

/-- The matrices the stack holds, top first. -/
def MatrixStack.matrices {M : Type} (s : MatrixStack M) : List M := s.top :: s.saved

/-- Modelled from the spec: the part of the context `PFctx` that the matrix API acts on
(section 3): the active matrix mode, one stack per mode, and the error slot. -/
structure PFctx (M : Type) where
  matrixMode : PFmatrixmode
  modelview : MatrixStack M
  projection : MatrixStack M
  errCode : PFerrcode

/-- The stack of the active matrix mode. -/
def PFctx.activeStack {M : Type} (ctx : PFctx M) : MatrixStack M :=
  match ctx.matrixMode with
  | .PF_MODELVIEW => ctx.modelview
  | .PF_PROJECTION => ctx.projection

/-- Replacement of the stack of the active matrix mode. -/
def PFctx.setActiveStack {M : Type} (ctx : PFctx M) (s : MatrixStack M) : PFctx M :=
  match ctx.matrixMode with
  | .PF_MODELVIEW => { ctx with modelview := s }
  | .PF_PROJECTION => { ctx with projection := s }

/-- Modelled from the spec: the matrix part of a freshly created context; the body of
`pfCreateContext` is missing. Each stack holds one matrix, the identity. -/
def pfCreateContext {M : Type} (identity : M) : PFctx M :=
  { matrixMode := .PF_MODELVIEW
    modelview := ⟨identity, []⟩
    projection := ⟨identity, []⟩
    errCode := .PF_NO_ERROR }

/-- Modelled from the spec: the body of `pfMatrixMode` is missing; section 4.3, "select mode
(modelview/projection)". -/
def pfMatrixMode {M : Type} (ctx : PFctx M) (mode : PFmatrixmode) : PFctx M :=
  { ctx with matrixMode := mode }

/-- Modelled from the spec: the body of `pfPushMatrix` is missing; section 4.3, "push
(duplicate top)" and "stack depth is bounded (8 slots); exceeding it signals stack-overflow and
leaves the stack unchanged". The error slot is overwritten by a failing call (section 3). -/
def pfPushMatrix {M : Type} (ctx : PFctx M) : PFctx M :=
  let s := ctx.activeStack
  if s.depth ≥ PF_MAX_MATRIX_STACK_SIZE then
    { ctx with errCode := .PF_STACK_OVERFLOW }
  else
    ctx.setActiveStack ⟨s.top, s.top :: s.saved⟩

/-- Modelled from the spec: the body of `pfPopMatrix` is missing; section 4.3, "pop (restore
previous, no-op plus error if stack has only one element)". -/
def pfPopMatrix {M : Type} (ctx : PFctx M) : PFctx M :=
  let s := ctx.activeStack
  match s.saved with
  | [] => { ctx with errCode := .PF_STACK_OVERFLOW }
  | m :: rest => ctx.setActiveStack ⟨m, rest⟩

/-- Both stacks hold at most `PF_MAX_MATRIX_STACK_SIZE` matrices. -/
def PFctx.stacksBounded {M : Type} (ctx : PFctx M) : Prop :=
  ctx.modelview.depth ≤ PF_MAX_MATRIX_STACK_SIZE ∧
  ctx.projection.depth ≤ PF_MAX_MATRIX_STACK_SIZE

instance {M : Type} (ctx : PFctx M) : Decidable ctx.stacksBounded := by
  unfold PFctx.stacksBounded; infer_instance

/-- One call of the matrix API. -/
inductive MatrixOp where
  | mode (m : PFmatrixmode)
  | push
  | pop

/-- The context after one call of the matrix API. -/
def applyMatrixOp {M : Type} (ctx : PFctx M) : MatrixOp → PFctx M
  | .mode m => pfMatrixMode ctx m
  | .push => pfPushMatrix ctx
  | .pop => pfPopMatrix ctx

/-- The context after `n` calls of `pfPushMatrix`. -/
def pushN {M : Type} : Nat → PFctx M → PFctx M
  | 0, ctx => ctx
  | n + 1, ctx => pushN n (pfPushMatrix ctx)

/-! ## Primitive assembly (declared in `pixelforge.h`, implementation file not among the sources) -/

/-- Modelled from the spec: vertices per primitive of a drawing mode (section 3: points singly,
"lines in pairs, triangles in triples, quads in quadruples"). -/
def PFdrawmode.arity : PFdrawmode → Nat
  | .PF_POINTS => 1
  | .PF_LINES => 2
  | .PF_TRIANGLES => 3
  | .PF_QUADS => 4

/-- Modelled from the spec: grouping of the recorded vertices into groups of `n`; `cur` is the
group being filled. A group is emitted when it is complete and a partial trailing group is
dropped (section 3). -/
def groupAux {α : Type} (n : Nat) : List α → List α → List (List α)
  | _, [] => []
  | cur, v :: vs =>
    if cur.length + 1 = n then (cur ++ [v]) :: groupAux n [] vs
    else groupAux n (cur ++ [v]) vs

/-- Modelled from the spec: the flush of `pfEnd`, whose body is missing, groups the vertices
recorded since `pfBegin(mode)` by the numeric value of the mode (section 4.5, "the primitive's
vertices are grouped by its arity"). -/
def groupVertices {α : Type} (mode : PFdrawmode) (vs : List α) : List (List α) :=
  groupAux mode.val [] vs

/-! # Theorems -/

/-! ## Pixel getter and setter -/

/-- Below 2^30 the `PFsizei` index arithmetic of the accessors does not wrap. -/
theorem u32_idx (off k : Nat) (h : off < 2 ^ 30) (hk : k < 4) :
    u32 (u32 (off * 4) + k) = off * 4 + k := by
  unfold u32; omega

/-- Below 2^30 the product `offset*4` does not wrap. -/
theorem u32_idx0 (off : Nat) (h : off < 2 ^ 30) : u32 (off * 4) = off * 4 := by
  unfold u32; omega

/-- A store inside the buffer succeeds. -/
theorem storeByte_some (p : List Nat) (i v : Nat) (h : i < p.length) :
    storeByte p i v = some (p.set i (v % 256)) := by
  simp [storeByte, h]

/-- Closed form of `PF_SetPixel` on a pixel inside the buffer. -/
theorem PF_SetPixel_eq (buf : List Nat) (off : Nat) (c : PFcolor)
    (hoff : off < 2 ^ 30) (hlen : 4 * (off + 1) ≤ buf.length) :
    PF_SetPixel buf off c =
      some ((((buf.set (off * 4) (c.b % 256)).set (off * 4 + 1) (c.g % 256)).set
        (off * 4 + 2) (c.r % 256)).set (off * 4 + 3) (c.a % 256)) := by
  unfold PF_SetPixel
  rw [u32_idx off 1 hoff (by omega), u32_idx off 2 hoff (by omega),
    u32_idx off 3 hoff (by omega), u32_idx0 off hoff]
  rw [storeByte_some _ _ _ (by omega)]
  simp only [Option.bind_eq_bind, Option.some_bind]
  rw [storeByte_some _ _ _ (by simp; omega)]
  simp only [Option.some_bind]
  rw [storeByte_some _ _ _ (by simp; omega)]
  simp only [Option.some_bind]
  rw [storeByte_some _ _ _ (by simp; omega)]

/-- Closed form of `PF_GetPixel` on a pixel inside the buffer. -/
theorem PF_GetPixel_eq (buf : List Nat) (off : Nat)
    (hoff : off < 2 ^ 30) (hlen : 4 * (off + 1) ≤ buf.length) :
    PF_GetPixel buf off =
      some ⟨buf.getD (off * 4 + 2) 0, buf.getD (off * 4 + 1) 0, buf.getD (off * 4) 0,
        buf.getD (off * 4 + 3) 0⟩ := by
  unfold PF_GetPixel loadByte
  rw [u32_idx off 1 hoff (by omega), u32_idx off 2 hoff (by omega),
    u32_idx off 3 hoff (by omega), u32_idx0 off hoff]
  have h0 : off * 4 < buf.length := by omega
  have h1 : off * 4 + 1 < buf.length := by omega
  have h2 : off * 4 + 2 < buf.length := by omega
  have h3 : off * 4 + 3 < buf.length := by omega
  simp [List.getD, List.getElem?_eq_getElem, h0, h1, h2, h3]

/-- Every byte of the buffer after the four stores of `PF_SetPixel`. -/
theorem setPixel_getElem_opt (buf : List Nat) (off : Nat) (c : PFcolor) (k : Nat) :
    ((((buf.set (off * 4) (c.b % 256)).set (off * 4 + 1) (c.g % 256)).set
        (off * 4 + 2) (c.r % 256)).set (off * 4 + 3) (c.a % 256))[k]? =
      if k < buf.length then
        (if k = off * 4 + 3 then some (c.a % 256)
         else if k = off * 4 + 2 then some (c.r % 256)
         else if k = off * 4 + 1 then some (c.g % 256)
         else if k = off * 4 then some (c.b % 256)
         else buf[k]?)
      else none := by
  simp only [List.getElem?_set, List.length_set]
  by_cases hk : k < buf.length
  · simp only [hk, if_true]
    by_cases h3 : k = off * 4 + 3
    · subst h3; simp [hk]
    · by_cases h2 : k = off * 4 + 2
      · subst h2; simp [hk]
      · by_cases h1 : k = off * 4 + 1
        · subst h1; simp [hk]
        · by_cases h0 : k = off * 4
          · subst h0; simp [hk]
          · have e3 : ¬ off * 4 + 3 = k := fun h => h3 h.symm
            have e2 : ¬ off * 4 + 2 = k := fun h => h2 h.symm
            have e1 : ¬ off * 4 + 1 = k := fun h => h1 h.symm
            have e0 : ¬ off * 4 = k := fun h => h0 h.symm
            simp [h3, h2, h1, h0, e3, e2, e1, e0]
  · have : buf[k]? = none := by simp; omega
    simp only [hk, this, if_false]
    split_ifs <;> first | rfl | omega

/-- Bytes outside the four of the written pixel keep their value. -/
theorem setPixel_getElem_opt_other (buf : List Nat) (off : Nat) (c : PFcolor) (k : Nat)
    (hk : k < off * 4 ∨ off * 4 + 3 < k) :
    ((((buf.set (off * 4) (c.b % 256)).set (off * 4 + 1) (c.g % 256)).set
        (off * 4 + 2) (c.r % 256)).set (off * 4 + 3) (c.a % 256))[k]? = buf[k]? := by
  rw [setPixel_getElem_opt]
  by_cases hkl : k < buf.length
  · rw [if_pos hkl, if_neg (by omega), if_neg (by omega), if_neg (by omega), if_neg (by omega)]
  · rw [if_neg hkl]; symm; simp; omega

/-- The bound `offset < 2^30` matters: at `offset = 2^30 + 1` the index arithmetic wraps and
the getter reads pixel 1. -/
theorem PF_GetPixel_index_wraps :
    PF_GetPixel [0, 0, 0, 0, 3, 2, 1, 4] (2 ^ 30 + 1) = some ⟨1, 2, 3, 4⟩ := by decide

/-- Reading back the pixel whose four bytes were just stored gives the colour stored. -/
theorem PF_GetPixel_written (buf : List Nat) (off : Nat) (c : PFcolor)
    (hoff : off < 2 ^ 30) (hlen : 4 * (off + 1) ≤ buf.length) (hc : c.valid) :
    PF_GetPixel ((((buf.set (off * 4) (c.b % 256)).set (off * 4 + 1) (c.g % 256)).set
        (off * 4 + 2) (c.r % 256)).set (off * 4 + 3) (c.a % 256)) off = some c := by
  rw [PF_GetPixel_eq _ off hoff (by simpa using hlen)]
  obtain ⟨hr, hg, hb, ha⟩ := hc
  have h0 : off * 4 < buf.length := by omega
  have h1 : off * 4 + 1 < buf.length := by omega
  have h2 : off * 4 + 2 < buf.length := by omega
  have h3 : off * 4 + 3 < buf.length := by omega
  simp only [List.getD_eq_getElem?_getD, setPixel_getElem_opt]
  cases c
  simp_all [Nat.mod_eq_of_lt]

/-- C1: for every buffer, every pixel index `off < 2^30` with `4*(off+1)` bytes in the buffer
and every colour with 8-bit channels, `PF_SetPixel` succeeds and `PF_GetPixel` on the written
buffer returns exactly that colour, on all four channels. -/
theorem PF_GetPixel_SetPixel (buf : List Nat) (off : Nat) (c : PFcolor)
    (hoff : off < 2 ^ 30) (hlen : 4 * (off + 1) ≤ buf.length) (hc : c.valid) :
    ∃ buf1, PF_SetPixel buf off c = some buf1 ∧ PF_GetPixel buf1 off = some c := by
  have hset := PF_SetPixel_eq buf off c hoff hlen
  have hget := PF_GetPixel_written buf off c hoff hlen hc
  exact ⟨_, hset, hget⟩

/-- C1 at a concrete input: pixel 1 of an 8-byte buffer, colour (1, 2, 3, 4). -/
theorem PF_GetPixel_SetPixel_witness :
    (1 < 2 ^ 30 ∧ 4 * (1 + 1) ≤ [0, 0, 0, 0, 9, 9, 9, 9].length ∧
      (PFcolor.mk 1 2 3 4).valid) ∧
    ∃ buf1, PF_SetPixel [0, 0, 0, 0, 9, 9, 9, 9] 1 ⟨1, 2, 3, 4⟩ = some buf1 ∧
      PF_GetPixel buf1 1 = some ⟨1, 2, 3, 4⟩ :=
  ⟨by decide,
    PF_GetPixel_SetPixel [0, 0, 0, 0, 9, 9, 9, 9] 1 ⟨1, 2, 3, 4⟩ (by decide) (by decide)
      (by decide)⟩

/-- C8: for two distinct pixel indices `i`, `j` below 2^30 and inside the buffer,
`PF_SetPixel` at `i` succeeds, keeps the length, puts blue, green, red, alpha into the bytes
`4*i .. 4*i+3`, leaves every other byte unchanged, and `PF_GetPixel` at `j` returns the same
colour before and after. -/
theorem PF_SetPixel_frame (buf : List Nat) (i j : Nat) (c : PFcolor)
    (hij : i ≠ j) (hi : i < 2 ^ 30) (hj : j < 2 ^ 30)
    (hil : 4 * (i + 1) ≤ buf.length) (hjl : 4 * (j + 1) ≤ buf.length) :
    ∃ buf1, PF_SetPixel buf i c = some buf1 ∧ buf1.length = buf.length ∧
      buf1[4 * i]? = some (c.b % 256) ∧ buf1[4 * i + 1]? = some (c.g % 256) ∧
      buf1[4 * i + 2]? = some (c.r % 256) ∧ buf1[4 * i + 3]? = some (c.a % 256) ∧
      (∀ k, (k < 4 * i ∨ 4 * i + 3 < k) → buf1[k]? = buf[k]?) ∧
      PF_GetPixel buf1 j = PF_GetPixel buf j := by
  refine ⟨_, PF_SetPixel_eq buf i c hi hil, by simp, ?_, ?_, ?_, ?_, ?_, ?_⟩
  · rw [setPixel_getElem_opt]; split_ifs <;> first | rfl | omega
  · rw [setPixel_getElem_opt]; split_ifs <;> first | rfl | omega
  · rw [setPixel_getElem_opt]; split_ifs <;> first | rfl | omega
  · rw [setPixel_getElem_opt]; split_ifs <;> first | rfl | omega
  · intro k hk
    exact setPixel_getElem_opt_other buf i c k (by omega)
  · rw [PF_GetPixel_eq _ j hj (by simpa using hjl), PF_GetPixel_eq _ j hj hjl]
    simp only [List.getD_eq_getElem?_getD]
    rw [setPixel_getElem_opt_other buf i c (j * 4) (by omega),
      setPixel_getElem_opt_other buf i c (j * 4 + 1) (by omega),
      setPixel_getElem_opt_other buf i c (j * 4 + 2) (by omega),
      setPixel_getElem_opt_other buf i c (j * 4 + 3) (by omega)]

/-- C8 at a concrete input: writing pixel 0 of an 8-byte buffer, reading pixel 1. -/
theorem PF_SetPixel_frame_witness :
    ((0 : Nat) ≠ 1 ∧ 0 < 2 ^ 30 ∧ 1 < 2 ^ 30 ∧
      4 * (0 + 1) ≤ [5, 6, 7, 8, 9, 10, 11, 12].length ∧
      4 * (1 + 1) ≤ [5, 6, 7, 8, 9, 10, 11, 12].length) ∧
    ∃ buf1, PF_SetPixel [5, 6, 7, 8, 9, 10, 11, 12] 0 ⟨1, 2, 3, 4⟩ = some buf1 ∧
      buf1.length = [5, 6, 7, 8, 9, 10, 11, 12].length ∧
      buf1[4 * 0]? = some (3 % 256) ∧ buf1[4 * 0 + 1]? = some (2 % 256) ∧
      buf1[4 * 0 + 2]? = some (1 % 256) ∧ buf1[4 * 0 + 3]? = some (4 % 256) ∧
      (∀ k, (k < 4 * 0 ∨ 4 * 0 + 3 < k) → buf1[k]? = [5, 6, 7, 8, 9, 10, 11, 12][k]?) ∧
      PF_GetPixel buf1 1 = PF_GetPixel [5, 6, 7, 8, 9, 10, 11, 12] 1 :=
  ⟨by decide,
    PF_SetPixel_frame [5, 6, 7, 8, 9, 10, 11, 12] 0 1 ⟨1, 2, 3, 4⟩ (by decide) (by decide)
      (by decide) (by decide) (by decide)⟩

/-- C9: for every buffer of bytes and every pixel index `off < 2^30` inside it, `PF_GetPixel`
returns a colour with 8-bit channels, writing that colour back with `PF_SetPixel` gives the
same buffer byte for byte, and the four bytes of the pixel are, in order, the blue, green, red
and alpha channel of the colour read; in the other direction every colour with 8-bit channels
is read back after being written, so the four bytes of a pixel and the `PFcolor` values
correspond one to one. -/
theorem PF_SetPixel_GetPixel (buf : List Nat) (off : Nat)
    (hoff : off < 2 ^ 30) (hlen : 4 * (off + 1) ≤ buf.length)
    (hbytes : ∀ x ∈ buf, x < 256) :
    (∃ c, PF_GetPixel buf off = some c ∧ c.valid ∧ PF_SetPixel buf off c = some buf ∧
      buf[4 * off]? = some c.b ∧ buf[4 * off + 1]? = some c.g ∧
      buf[4 * off + 2]? = some c.r ∧ buf[4 * off + 3]? = some c.a) ∧
    (∀ c : PFcolor, c.valid →
      ∃ buf1, PF_SetPixel buf off c = some buf1 ∧ PF_GetPixel buf1 off = some c) := by
  refine ⟨?_, fun c hc =>
    ⟨_, PF_SetPixel_eq buf off c hoff hlen, PF_GetPixel_written buf off c hoff hlen hc⟩⟩
  have h0 : off * 4 < buf.length := by omega
  have h1 : off * 4 + 1 < buf.length := by omega
  have h2 : off * 4 + 2 < buf.length := by omega
  have h3 : off * 4 + 3 < buf.length := by omega
  have e0 : buf[off * 4]? = some (buf.getD (off * 4) 0) := by
    simp [List.getD_eq_getElem?_getD, List.getElem?_eq_getElem, h0]
  have e1 : buf[off * 4 + 1]? = some (buf.getD (off * 4 + 1) 0) := by
    simp [List.getD_eq_getElem?_getD, List.getElem?_eq_getElem, h1]
  have e2 : buf[off * 4 + 2]? = some (buf.getD (off * 4 + 2) 0) := by
    simp [List.getD_eq_getElem?_getD, List.getElem?_eq_getElem, h2]
  have e3 : buf[off * 4 + 3]? = some (buf.getD (off * 4 + 3) 0) := by
    simp [List.getD_eq_getElem?_getD, List.getElem?_eq_getElem, h3]
  have hb : ∀ (k v : Nat), buf[k]? = some v → v < 256 := by
    intro k v hv
    exact hbytes v (List.getElem?_mem hv)
  have b0 := hb _ _ e0
  have b1 := hb _ _ e1
  have b2 := hb _ _ e2
  have b3 := hb _ _ e3
  refine ⟨_, PF_GetPixel_eq buf off hoff hlen, ⟨b2, b1, b0, b3⟩, ?_, ?_, ?_, ?_, ?_⟩
  · rw [PF_SetPixel_eq buf off _ hoff hlen]
    congr 1
    apply List.ext_getElem?
    intro k
    rw [setPixel_getElem_opt]
    simp only [Nat.mod_eq_of_lt b0, Nat.mod_eq_of_lt b1, Nat.mod_eq_of_lt b2, Nat.mod_eq_of_lt b3]
    by_cases hk : k < buf.length
    · rw [if_pos hk]
      split_ifs with a3 a2 a1 a0
      · rw [a3, e3]
      · rw [a2, e2]
      · rw [a1, e1]
      · rw [a0, e0]
      · rfl
    · rw [if_neg hk]; symm; simp; omega
  · rw [Nat.mul_comm]; exact e0
  · rw [Nat.mul_comm]; exact e1
  · rw [Nat.mul_comm]; exact e2
  · rw [Nat.mul_comm]; exact e3

/-- C9 at a concrete input: pixel 1 of an 8-byte buffer. -/
theorem PF_SetPixel_GetPixel_witness :
    (1 < 2 ^ 30 ∧ 4 * (1 + 1) ≤ [5, 6, 7, 8, 30, 20, 10, 255].length ∧
      ∀ x ∈ [5, 6, 7, 8, 30, 20, 10, 255], x < 256) ∧
    ((∃ c, PF_GetPixel [5, 6, 7, 8, 30, 20, 10, 255] 1 = some c ∧ c.valid ∧
      PF_SetPixel [5, 6, 7, 8, 30, 20, 10, 255] 1 c = some [5, 6, 7, 8, 30, 20, 10, 255] ∧
      [5, 6, 7, 8, 30, 20, 10, 255][4 * 1]? = some c.b ∧
      [5, 6, 7, 8, 30, 20, 10, 255][4 * 1 + 1]? = some c.g ∧
      [5, 6, 7, 8, 30, 20, 10, 255][4 * 1 + 2]? = some c.r ∧
      [5, 6, 7, 8, 30, 20, 10, 255][4 * 1 + 3]? = some c.a) ∧
    (∀ c : PFcolor, c.valid →
      ∃ buf1, PF_SetPixel [5, 6, 7, 8, 30, 20, 10, 255] 1 c = some buf1 ∧
        PF_GetPixel buf1 1 = some c)) :=
  ⟨by decide,
    PF_SetPixel_GetPixel [5, 6, 7, 8, 30, 20, 10, 255] 1 (by decide) (by decide) (by decide)⟩

/-! ## The clamp macros `MAX_0` and `MIN_255` -/

/-- A value in the `int32_t` range is unchanged by the reduction to 32 bits. -/
theorem wrap32_of_range (x : Int) (h1 : -2147483648 ≤ x) (h2 : x < 2147483648) :
    wrap32 x = x := by
  unfold wrap32 ofU32 toU32; split_ifs <;> omega

/-- A 32-bit pattern is below 2^32. -/
theorem toU32_lt (x : Int) : toU32 x < 4294967296 := by
  unfold toU32; omega

/-- The pattern of -1 is all ones. -/
theorem toU32_neg_one : toU32 (-1) = 2 ^ 32 - 1 := by decide

/-- The pattern of 0 is 0. -/
theorem toU32_zero : toU32 0 = 0 := by decide

/-- Or with the all-ones word gives the all-ones word. -/
theorem or_ones (u : Nat) (h : u < 2 ^ 32) : u ||| (2 ^ 32 - 1) = 2 ^ 32 - 1 := by
  apply Nat.eq_of_testBit_eq
  intro i
  rw [Nat.testBit_or, Nat.testBit_two_pow_sub_one]
  by_cases hi : i < 32
  · simp [hi]
  · have : u < 2 ^ i := lt_of_lt_of_le h (Nat.pow_le_pow_right (by omega) (by omega))
    simp [hi, Nat.testBit_lt_two_pow this]

/-- On the `int32_t` range `MAX_0` is the maximum with 0. -/
theorem MAX_0_eq (n : Int) (hlo : -2147483648 ≤ n) (hhi : n < 2147483648) :
    MAX_0 n = max n 0 := by
  unfold MAX_0 and32
  by_cases h : 0 ≤ n
  · rw [if_pos h, wrap32_of_range _ (by omega) (by omega), toU32_neg_one,
      Nat.and_pow_two_sub_one_eq_mod, Nat.mod_eq_of_lt (toU32_lt n)]
    show wrap32 n = _
    rw [wrap32_of_range n hlo hhi]; omega
  · rw [if_neg h, wrap32_of_range _ (by omega) (by omega), neg_zero, toU32_zero, Nat.and_zero]
    simp [ofU32]; omega

/-- On a non-negative `int32_t` value `MIN_255` is the value itself up to 255 and -1 above. -/
theorem MIN_255_of_nonneg (x : Int) (h0 : 0 ≤ x) (h1 : x < 2147483648) :
    MIN_255 x = if x ≤ 255 then x else -1 := by
  unfold MIN_255 or32 sar32
  rw [wrap32_of_range _ (by omega) (by omega)]
  have hs : (255 - x) >>> (31 : Nat) = (255 - x) / 2147483648 := by
    have := Int.shiftRight_eq_div_pow (255 - x) 31
    simpa using this
  rw [hs]
  by_cases h : x ≤ 255
  · rw [if_pos h]
    have : (255 - x) / 2147483648 = 0 := by omega
    rw [this, toU32_zero, Nat.or_zero]
    exact wrap32_of_range x (by omega) h1
  · rw [if_neg h]
    have : (255 - x) / 2147483648 = -1 := by omega
    rw [this, toU32_neg_one, or_ones _ (toU32_lt x)]
    decide

/-- Without `MAX_0` the subtraction inside `MIN_255` can leave the 32-bit range: at
`n = -2147483648` the difference `255 - n` is `2147483903`. -/
theorem MIN_255_alone_overflows :
    ¬ ((255 : Int) - (-2147483648) < 2147483648) ∧ wrap32 (255 - (-2147483648)) < 0 := by
  decide

/-- C6: for every 32-bit signed integer `n`, `MAX_0(n)` is `max(n, 0)`; `MIN_255(MAX_0(n))`
converted to `PFubyte` is 0 for `n < 0`, `n` for `0 <= n <= 255` and 255 for `n > 255`; and
the difference `255 - MAX_0(n)` lies in the 32-bit signed range. -/
theorem MIN_255_MAX_0_clamp (n : Int) (hlo : -2147483648 ≤ n) (hhi : n < 2147483648) :
    MAX_0 n = max n 0 ∧
    toPFubyte (MIN_255 (MAX_0 n)) = (if n < 0 then 0 else if n ≤ 255 then n.toNat else 255) ∧
    (-2147483648 ≤ 255 - MAX_0 n ∧ 255 - MAX_0 n < 2147483648) := by
  have hm := MAX_0_eq n hlo hhi
  refine ⟨hm, ?_, ?_⟩
  · rw [MIN_255_of_nonneg _ (by rw [hm]; omega) (by rw [hm]; omega), hm]
    unfold toPFubyte
    by_cases h1 : n < 0
    · rw [if_pos h1, max_eq_right (by omega)]; simp
    · rw [if_neg h1, max_eq_left (by omega)]
      by_cases h2 : n ≤ 255
      · rw [if_pos h2, if_pos h2]; congr 1; omega
      · rw [if_neg h2, if_neg h2]; decide
  · rw [hm]; omega

/-- C6 at a concrete input: `n = 300` clamps to 255. -/
theorem MIN_255_MAX_0_clamp_witness :
    ((-2147483648 : Int) ≤ 300 ∧ (300 : Int) < 2147483648) ∧
    (MAX_0 300 = max 300 0 ∧
      toPFubyte (MIN_255 (MAX_0 300))
        = (if (300 : Int) < 0 then 0 else if (300 : Int) ≤ 255 then (300 : Int).toNat else 255) ∧
      (-2147483648 ≤ 255 - MAX_0 300 ∧ 255 - MAX_0 300 < 2147483648)) :=
  ⟨by decide, MIN_255_MAX_0_clamp 300 (by decide) (by decide)⟩

/-! ## The `PFstate` flags -/

/-- The value of a flag is the power of two of its bit index. -/
theorem PFstate.val_eq_two_pow (f : PFstate) : f.val = 2 ^ f.bitIndex := by
  cases f <;> rfl

/-- Every flag lies in the low 32 bits. -/
theorem PFstate.bitIndex_lt (f : PFstate) : f.bitIndex < 32 := by
  cases f <;> decide

/-- Distinct flags have distinct bits. -/
theorem PFstate.bitIndex_injective (f g : PFstate) (h : f.bitIndex = g.bitIndex) : f = g := by
  cases f <;> cases g <;> first | rfl | exact absurd h (by decide)

/-- The 32-bit complement of a single-bit mask. -/
theorem compl32_two_pow (k : Nat) (hk : k < 32) : compl32 (2 ^ k) = 2 ^ 32 - (2 ^ k + 1) := by
  have h : 2 ^ k < 2 ^ 32 := Nat.pow_lt_pow_right (by omega) hk
  unfold compl32
  rw [Nat.mod_eq_of_lt (by simpa using h)]
  omega

/-- The bits of the 32-bit complement of a single-bit mask. -/
theorem testBit_compl32_two_pow (k i : Nat) (hk : k < 32) :
    (compl32 (2 ^ k)).testBit i = (decide (i < 32) && !decide (k = i)) := by
  have h : 2 ^ k < 2 ^ 32 := Nat.pow_lt_pow_right (by omega) hk
  rw [compl32_two_pow k hk, Nat.testBit_two_pow_sub_succ h, Nat.testBit_two_pow]

/-- After setting bit `k` the test of bit `k` gives the mask. -/
theorem or_and_self_two_pow (m k : Nat) : (m ||| 2 ^ k) &&& 2 ^ k = 2 ^ k := by
  apply Nat.eq_of_testBit_eq
  intro i
  simp only [Nat.testBit_and, Nat.testBit_or, Nat.testBit_two_pow]
  by_cases h : k = i <;> simp [h]

/-- Setting bit `k` does not change the test of another bit `j`. -/
theorem or_and_other_two_pow (m k j : Nat) (hkj : k ≠ j) :
    (m ||| 2 ^ k) &&& 2 ^ j = m &&& 2 ^ j := by
  apply Nat.eq_of_testBit_eq
  intro i
  simp only [Nat.testBit_and, Nat.testBit_or, Nat.testBit_two_pow]
  by_cases h : j = i
  · subst h; simp [hkj]
  · simp [h]

/-- After clearing bit `k` the test of bit `k` gives 0. -/
theorem clear_and_self_two_pow (m k : Nat) (hk : k < 32) :
    (m &&& compl32 (2 ^ k)) &&& 2 ^ k = 0 := by
  apply Nat.eq_of_testBit_eq
  intro i
  simp only [Nat.testBit_and, testBit_compl32_two_pow k i hk, Nat.testBit_two_pow,
    Nat.zero_testBit]
  by_cases h : k = i <;> simp [h]

/-- Clearing bit `k` does not change the test of another bit `j`. -/
theorem clear_and_other_two_pow (m k j : Nat) (hk : k < 32) (hj : j < 32) (hkj : k ≠ j) :
    (m &&& compl32 (2 ^ k)) &&& 2 ^ j = m &&& 2 ^ j := by
  apply Nat.eq_of_testBit_eq
  intro i
  simp only [Nat.testBit_and, testBit_compl32_two_pow k i hk, Nat.testBit_two_pow]
  by_cases h : j = i
  · subst h; simp [hkj, hj]
  · simp [h]

/-- C5: the five `PFstate` enumerators are pairwise distinct single-bit masks; for every 32-bit
word `m` and distinct flags `f`, `g`: `(m | f) & f != 0`, `(m & ~f) & f == 0`, setting or
clearing `f` leaves the test `(m & g) != 0` unchanged, and the word stays a 32-bit word. -/
theorem PFstate_bitset (m : Nat) (hm : m < 2 ^ 32) (f g : PFstate) (hfg : f ≠ g) :
    (∃ k, k < 32 ∧ f.val = 2 ^ k) ∧ f.val ≠ g.val ∧
    (m ||| f.val) &&& f.val ≠ 0 ∧
    (m &&& compl32 f.val) &&& f.val = 0 ∧
    ((m ||| f.val) &&& g.val ≠ 0 ↔ m &&& g.val ≠ 0) ∧
    ((m &&& compl32 f.val) &&& g.val ≠ 0 ↔ m &&& g.val ≠ 0) ∧
    m ||| f.val < 2 ^ 32 ∧ m &&& compl32 f.val < 2 ^ 32 := by
  have hne : f.bitIndex ≠ g.bitIndex := fun h => hfg (PFstate.bitIndex_injective f g h)
  have hf := f.bitIndex_lt
  have hg := g.bitIndex_lt
  have hfv : f.val < 2 ^ 32 := by
    rw [f.val_eq_two_pow]; exact Nat.pow_lt_pow_right (by omega) hf
  refine ⟨⟨f.bitIndex, hf, f.val_eq_two_pow⟩, ?_, ?_, ?_, ?_, ?_, ?_, ?_⟩
  · rw [f.val_eq_two_pow, g.val_eq_two_pow]
    intro h
    exact hne (Nat.pow_right_injective (le_refl 2) h)
  · rw [f.val_eq_two_pow, or_and_self_two_pow]
    exact Nat.pos_iff_ne_zero.mp (Nat.two_pow_pos _)
  · rw [f.val_eq_two_pow, clear_and_self_two_pow m _ hf]
  · rw [f.val_eq_two_pow, g.val_eq_two_pow, or_and_other_two_pow m _ _ hne]
  · rw [f.val_eq_two_pow, g.val_eq_two_pow, clear_and_other_two_pow m _ _ hf hg hne]
  · exact Nat.or_lt_two_pow hm hfv
  · exact lt_of_le_of_lt Nat.and_le_left hm

/-- C5 at a concrete input: the word 21 with the flags `PF_DEPTH_TEST` and `PF_LIGHTING`. -/
theorem PFstate_bitset_witness :
    (21 < 2 ^ 32 ∧ PFstate.PF_DEPTH_TEST ≠ PFstate.PF_LIGHTING) ∧
    ((∃ k, k < 32 ∧ PFstate.PF_DEPTH_TEST.val = 2 ^ k) ∧
      PFstate.PF_DEPTH_TEST.val ≠ PFstate.PF_LIGHTING.val ∧
      (21 ||| PFstate.PF_DEPTH_TEST.val) &&& PFstate.PF_DEPTH_TEST.val ≠ 0 ∧
      (21 &&& compl32 PFstate.PF_DEPTH_TEST.val) &&& PFstate.PF_DEPTH_TEST.val = 0 ∧
      ((21 ||| PFstate.PF_DEPTH_TEST.val) &&& PFstate.PF_LIGHTING.val ≠ 0
        ↔ 21 &&& PFstate.PF_LIGHTING.val ≠ 0) ∧
      ((21 &&& compl32 PFstate.PF_DEPTH_TEST.val) &&& PFstate.PF_LIGHTING.val ≠ 0
        ↔ 21 &&& PFstate.PF_LIGHTING.val ≠ 0) ∧
      21 ||| PFstate.PF_DEPTH_TEST.val < 2 ^ 32 ∧
      21 &&& compl32 PFstate.PF_DEPTH_TEST.val < 2 ^ 32) :=
  ⟨by decide, PFstate_bitset 21 (by decide) .PF_DEPTH_TEST .PF_LIGHTING (by decide)⟩

/-! ## The `PFlights` enumeration -/

/-- C4: the enumerator `PF_LIGHT8` has the value 8, which is not below `PF_MAX_LIGHTS`; the
enumerators whose value is a valid index of the light table are exactly the other eight. -/
theorem PFlights_LIGHT8_out_of_table :
    PFlights.PF_LIGHT8.val = 8 ∧ ¬ PFlights.PF_LIGHT8.val < PF_MAX_LIGHTS ∧
    ∀ l : PFlights, (l.val < PF_MAX_LIGHTS ↔ l ≠ PFlights.PF_LIGHT8) := by
  refine ⟨rfl, by decide, ?_⟩
  intro l
  cases l <;> decide

/-! ## The `PFdrawmode` enumeration and primitive assembly -/

/-- The grouping emits `(|cur| + |vs|) / n` groups, each of `n` vertices, which together are
the leading vertices of `cur ++ vs`. -/
theorem groupAux_spec {α : Type} (n : Nat) (hn : 0 < n) (vs : List α) :
    ∀ cur : List α, cur.length < n →
      (groupAux n cur vs).length = (cur.length + vs.length) / n ∧
      (∀ p ∈ groupAux n cur vs, p.length = n) ∧
      (groupAux n cur vs).flatten = (cur ++ vs).take ((cur.length + vs.length) / n * n) := by
  induction vs with
  | nil =>
    intro cur hcur
    simp [groupAux, Nat.div_eq_of_lt hcur]
  | cons v vs ih =>
    intro cur hcur
    by_cases h : cur.length + 1 = n
    · obtain ⟨h1, h2, h3⟩ := ih [] (by simpa using hn)
      have hq : (cur.length + (v :: vs).length) / n = vs.length / n + 1 := by
        have : cur.length + (v :: vs).length = vs.length + n := by simp; omega
        rw [this, Nat.add_div_right _ hn]
      simp only [groupAux, if_pos h]
      refine ⟨?_, ?_, ?_⟩
      · rw [List.length_cons, h1, hq]; simp
      · intro p hp
        rcases List.mem_cons.mp hp with rfl | hp
        · simp [h]
        · exact h2 p hp
      · rw [List.flatten_cons, h3, hq]
        have e : cur ++ v :: vs = (cur ++ [v]) ++ vs := by simp
        have l : (vs.length / n + 1) * n = (cur ++ [v]).length + vs.length / n * n := by
          simp [h]; ring
        rw [e, l, List.take_append]
        simp
    · obtain ⟨h1, h2, h3⟩ := ih (cur ++ [v]) (by simp; omega)
      have hl : (cur ++ [v]).length + vs.length = cur.length + (v :: vs).length := by
        simp; omega
      simp only [groupAux, if_neg h]
      rw [hl] at h1 h3
      refine ⟨h1, h2, ?_⟩
      rw [h3]; simp

/-- C7: the numeric value of every `PFdrawmode` enumerator is the number of vertices per
primitive of that mode, and grouping `k` vertices by the mode value gives `k / mode` groups,
each of `mode` vertices, which are the first `k - k % mode` vertices in order: the
`k % mode` trailing vertices are dropped. -/
theorem PFdrawmode_arity_grouping {α : Type} (mode : PFdrawmode) (vs : List α) :
    mode.val = mode.arity ∧
    (groupVertices mode vs).length = vs.length / mode.val ∧
    (∀ p ∈ groupVertices mode vs, p.length = mode.val) ∧
    (groupVertices mode vs).flatten = vs.take (vs.length - vs.length % mode.val) := by
  have hn : 0 < mode.val := by cases mode <;> decide
  obtain ⟨h1, h2, h3⟩ := groupAux_spec mode.val hn vs [] (by simpa using hn)
  refine ⟨by cases mode <;> rfl, by simpa using h1, h2, ?_⟩
  unfold groupVertices
  rw [h3]
  have : (([] : List α).length + vs.length) / mode.val * mode.val
      = vs.length - vs.length % mode.val := by
    have := Nat.div_add_mod vs.length mode.val
    simp only [List.length_nil, Nat.zero_add]
    rw [Nat.mul_comm]; omega
  rw [this]; simp

/-- Eight vertices in `PF_TRIANGLES` mode give two triangles; two vertices are dropped. -/
theorem groupVertices_triangles_eval :
    groupVertices .PF_TRIANGLES [1, 2, 3, 4, 5, 6, 7, 8] = [[1, 2, 3], [4, 5, 6]] := by decide

/-! ## Alpha blending -/

/-- Interpolation at alpha 255 gives the source channel. -/
theorem lerpChannel_full (s d : Nat) (hs : s < 256) : lerpChannel s d 255 = s := by
  unfold lerpChannel clampByte
  have : (s * 255 + d * (255 - 255)) / 255 = s := by
    simp
  rw [this, if_neg (by omega)]

/-- Interpolation at alpha 0 gives the destination channel. -/
theorem lerpChannel_none (s d : Nat) (hd : d < 256) : lerpChannel s d 0 = d := by
  unfold lerpChannel clampByte
  have : (s * 0 + d * (255 - 0)) / 255 = d := by
    simp
  rw [this, if_neg (by omega)]

/-- C2: for all colours `src`, `dst` with 8-bit channels, `pfBlendAlpha src dst` is `src` on
all four channels when `src.a = 255` and `dst` on all four channels when `src.a = 0`. -/
theorem pfBlendAlpha_endpoints (src dst : PFcolor) (hs : src.valid) (hd : dst.valid) :
    (src.a = 255 → pfBlendAlpha src dst = src) ∧
    (src.a = 0 → pfBlendAlpha src dst = dst) := by
  obtain ⟨sr, sg, sb, sa⟩ := hs
  obtain ⟨dr, dg, db, da⟩ := hd
  constructor
  · intro h
    cases src
    simp only at h sr sg sb sa
    subst h
    simp [pfBlendAlpha, lerpChannel_full, sr, sg, sb]
  · intro h
    cases src; cases dst
    simp only at h dr dg db da
    subst h
    simp [pfBlendAlpha, lerpChannel_none, dr, dg, db, da]

/-- C2 at concrete inputs: a source of alpha 255 and a source of alpha 0 over the same destination. -/
theorem pfBlendAlpha_endpoints_witness :
    ((PFcolor.mk 10 20 30 255).valid ∧ (PFcolor.mk 10 20 30 0).valid ∧
      (PFcolor.mk 200 100 50 128).valid) ∧
    pfBlendAlpha ⟨10, 20, 30, 255⟩ ⟨200, 100, 50, 128⟩ = ⟨10, 20, 30, 255⟩ ∧
    pfBlendAlpha ⟨10, 20, 30, 0⟩ ⟨200, 100, 50, 128⟩ = ⟨200, 100, 50, 128⟩ :=
  ⟨by decide,
    (pfBlendAlpha_endpoints ⟨10, 20, 30, 255⟩ ⟨200, 100, 50, 128⟩ (by decide) (by decide)).1 rfl,
    (pfBlendAlpha_endpoints ⟨10, 20, 30, 0⟩ ⟨200, 100, 50, 128⟩ (by decide) (by decide)).2 rfl⟩

/-- A half-transparent source is interpolated channel by channel. -/
theorem pfBlendAlpha_half_eval :
    pfBlendAlpha ⟨10, 20, 30, 128⟩ ⟨200, 100, 0, 255⟩ = ⟨104, 59, 15, 191⟩ := by decide

/-! ## Matrix stack -/

/-- The bound on both stacks is kept by `pfPushMatrix`. -/
theorem pfPushMatrix_preserves_bound {M : Type} (ctx : PFctx M) (h : ctx.stacksBounded) :
    (pfPushMatrix ctx).stacksBounded := by
  obtain ⟨h1, h2⟩ := h
  unfold pfPushMatrix
  simp only []
  split_ifs with hfull
  · exact ⟨h1, h2⟩
  · unfold PFctx.stacksBounded PFctx.setActiveStack PFctx.activeStack at *
    cases hm : ctx.matrixMode <;> simp only [hm] at hfull ⊢ <;>
      simp only [MatrixStack.depth, List.length_cons, PF_MAX_MATRIX_STACK_SIZE] at * <;>
      constructor <;> omega

/-- The bound on both stacks is kept by `pfPopMatrix`. -/
theorem pfPopMatrix_preserves_bound {M : Type} (ctx : PFctx M) (h : ctx.stacksBounded) :
    (pfPopMatrix ctx).stacksBounded := by
  obtain ⟨h1, h2⟩ := h
  unfold pfPopMatrix
  simp only []
  split
  · exact ⟨h1, h2⟩
  · rename_i m rest hs
    unfold PFctx.stacksBounded PFctx.setActiveStack PFctx.activeStack at *
    cases hm : ctx.matrixMode <;> simp only [hm] at hs ⊢ <;>
      simp only [MatrixStack.depth, hs, List.length_cons, PF_MAX_MATRIX_STACK_SIZE] at * <;>
      constructor <;> omega

/-- Every context reached from a fresh one by mode selections, pushes and pops has both
stacks within the bound. -/
theorem matrix_stack_bounded_reachable {M : Type} (identity : M) (ops : List MatrixOp) :
    (ops.foldl applyMatrixOp (pfCreateContext identity)).stacksBounded := by
  have base : (pfCreateContext identity).stacksBounded := by
    simp [PFctx.stacksBounded, pfCreateContext, MatrixStack.depth, PF_MAX_MATRIX_STACK_SIZE]
  generalize pfCreateContext identity = ctx at base
  induction ops generalizing ctx with
  | nil => exact base
  | cons op ops ih =>
    apply ih
    cases op with
    | mode m => exact base
    | push => exact pfPushMatrix_preserves_bound ctx base
    | pop => exact pfPopMatrix_preserves_bound ctx base

/-- The active stack of a context within the bound holds at most 8 matrices. -/
theorem activeStack_depth_le {M : Type} (c : PFctx M) (hc : c.stacksBounded) :
    c.activeStack.depth ≤ PF_MAX_MATRIX_STACK_SIZE := by
  unfold PFctx.activeStack
  cases c.matrixMode
  · exact hc.1
  · exact hc.2

/-- C3: `PF_MAX_MATRIX_STACK_SIZE` is 8; in every context whose stacks hold at most 8
matrices, after `pfPushMatrix` the stacks still hold at most 8; when the active stack holds 8,
`pfPushMatrix` leaves both stacks and the mode unchanged and sets the error to
`PF_STACK_OVERFLOW`; otherwise the active stack gains a copy of its top, its depth grows by
one (so stays at most 8) and the error slot is untouched. -/
theorem pfPushMatrix_stack_bound {M : Type} (ctx : PFctx M) (h : ctx.stacksBounded) :
    PF_MAX_MATRIX_STACK_SIZE = 8 ∧
    (pfPushMatrix ctx).stacksBounded ∧
    (pfPushMatrix ctx).activeStack.depth ≤ 8 ∧
    (ctx.activeStack.depth = 8 →
      (pfPushMatrix ctx).modelview = ctx.modelview ∧
      (pfPushMatrix ctx).projection = ctx.projection ∧
      (pfPushMatrix ctx).matrixMode = ctx.matrixMode ∧
      (pfPushMatrix ctx).errCode = .PF_STACK_OVERFLOW) ∧
    (ctx.activeStack.depth ≠ 8 →
      (pfPushMatrix ctx).activeStack.depth = ctx.activeStack.depth + 1 ∧
      (pfPushMatrix ctx).activeStack.matrices
        = ctx.activeStack.top :: ctx.activeStack.matrices ∧
      (pfPushMatrix ctx).errCode = ctx.errCode) := by
  have hb := pfPushMatrix_preserves_bound ctx h
  refine ⟨rfl, hb, activeStack_depth_le _ hb, ?_, ?_⟩
  · intro hfull
    have : ctx.activeStack.depth ≥ PF_MAX_MATRIX_STACK_SIZE := by
      rw [hfull]; exact le_refl _
    simp [pfPushMatrix, this]
  · intro hne
    have hle := activeStack_depth_le ctx h
    have : ¬ ctx.activeStack.depth ≥ PF_MAX_MATRIX_STACK_SIZE := by
      unfold PF_MAX_MATRIX_STACK_SIZE at hle ⊢; omega
    simp only [pfPushMatrix, this, if_false]
    unfold PFctx.setActiveStack PFctx.activeStack
    cases hm : ctx.matrixMode <;> simp [MatrixStack.depth, MatrixStack.matrices]

/-- C3 at a concrete input: a fresh context after seven pushes holds 8 matrices on the
modelview stack; one more push changes neither stack and sets `PF_STACK_OVERFLOW`. -/
theorem pfPushMatrix_stack_bound_witness :
    ((pushN 7 (pfCreateContext (0 : Nat))).stacksBounded ∧
      (pushN 7 (pfCreateContext (0 : Nat))).activeStack.depth = 8) ∧
    ((pfPushMatrix (pushN 7 (pfCreateContext (0 : Nat)))).modelview
        = (pushN 7 (pfCreateContext (0 : Nat))).modelview ∧
      (pfPushMatrix (pushN 7 (pfCreateContext (0 : Nat)))).projection
        = (pushN 7 (pfCreateContext (0 : Nat))).projection ∧
      (pfPushMatrix (pushN 7 (pfCreateContext (0 : Nat)))).matrixMode
        = (pushN 7 (pfCreateContext (0 : Nat))).matrixMode ∧
      (pfPushMatrix (pushN 7 (pfCreateContext (0 : Nat)))).errCode = .PF_STACK_OVERFLOW) :=
  ⟨by decide,
    (pfPushMatrix_stack_bound (pushN 7 (pfCreateContext (0 : Nat))) (by decide)).2.2.2.1
      (by decide)⟩

/-! ## Window reference counting -/

/-- A run over a concatenation is the run over the first part followed by the run over the
second. -/
theorem windowRun_append (p q : List WindowOp) (s : WindowState) :
    windowRun (p ++ q) s = (windowRun p s).bind (windowRun q) := by
  induction p generalizing s with
  | nil => simp [windowRun]
  | cons op p ih =>
    simp only [List.cons_append, windowRun]
    cases h : windowStep op s with
    | none => simp
    | some r => obtain ⟨s1, c⟩ := r; simp [ih]

/-- The live count is additive over concatenation. -/
theorem liveWindows_append (p q : List WindowOp) :
    liveWindows (p ++ q) = liveWindows p + liveWindows q := by
  induction p with
  | nil => simp [liveWindows]
  | cons op p ih =>
    rw [List.cons_append]
    simp only [liveWindows]
    rw [ih]; ring

/-- A run followed by one more call. -/
theorem windowRun_snoc (p : List WindowOp) (op : WindowOp) (s : WindowState) :
    windowRun (p ++ [op]) s =
      (windowRun p s).bind (fun sp => (windowStep op sp).map (fun r => r.1)) := by
  rw [windowRun_append]
  congr 1
  funext sp
  simp only [windowRun]
  cases h : windowStep op sp with
  | none => simp
  | some r => obtain ⟨s1, c⟩ := r; simp [windowRun]

/-- One successful call from a state in which the counter is the live count `n` and the video
subsystem is initialised exactly when `n > 0`, the live count staying within `0 .. 2^31 - 1`. -/
theorem windowStep_spec (op : WindowOp) (sp sq : WindowState) (calls : List SDLCall)
    (n : Int) (hstep : windowStep op sp = some (sq, calls))
    (hc : sp.windowCounter = n) (hv : sp.videoInitialised = true ↔ 0 < n)
    (hn0 : 0 ≤ n) (hlo : 0 ≤ n + (if op.isCreate then 1 else -1))
    (hhi : n + (if op.isCreate then 1 else -1) < 2147483648) :
    sq.windowCounter = n + (if op.isCreate then 1 else -1) ∧
    (sq.videoInitialised = true ↔ 0 < sq.windowCounter) ∧
    (SDLCall.SDL_VideoInit ∈ calls ↔ (op.isCreate = true ∧ sp.windowCounter = 0)) ∧
    (SDLCall.SDL_VideoQuit ∈ calls ↔ (op.isCreate = false ∧ sq.windowCounter = 0)) := by
  cases op with
  | create env =>
    simp only [WindowOp.isCreate, if_true] at hlo hhi ⊢
    simp only [windowStep, Window_Create, Option.map_eq_some'] at hstep
    obtain ⟨r, hr, hrs⟩ := hstep
    by_cases hfail : sp.windowCounter = 0 ∧ env.videoInit < 0
    · rw [if_pos hfail] at hr; exact absurd hr (by simp)
    rw [if_neg hfail] at hr
    cases hw : env.window with
    | none => simp [hw] at hr
    | some w =>
      cases hsf : env.surface with
      | none => simp [hw, hsf] at hr
      | some sf =>
        simp only [hw, hsf, Option.some.injEq] at hr
        subst hr
        simp only [Prod.mk.injEq] at hrs
        obtain ⟨rfl, rfl⟩ := hrs
        simp only [hc]
        rw [wrap32_of_range _ (by omega) hhi]
        by_cases h0 : n = 0
        · subst h0; simp
        · have : 0 < n := by omega
          simp [h0, hv, this]; omega
  | destroy w =>
    simp only [WindowOp.isCreate, Bool.false_eq_true, if_false] at hlo hhi ⊢
    simp only [windowStep, Window_Destroy, Option.some.injEq] at hstep
    rw [hc, wrap32_of_range _ (by omega) (by omega)] at hstep
    by_cases h1 : n - 1 = 0
    · simp only [h1, if_true, Prod.mk.injEq] at hstep
      obtain ⟨rfl, rfl⟩ := hstep
      simp; omega
    · simp only [h1, if_false, Prod.mk.injEq] at hstep
      obtain ⟨rfl, rfl⟩ := hstep
      have : 0 < n := by omega
      simp [hv, this]
      omega

/-- After a successful run whose live count stays within `0 .. 2^31 - 1`, the counter is the
live count and the video subsystem is initialised exactly when it is positive. -/
theorem windowRun_invariant (ops : List WindowOp) :
    ∀ s : WindowState, windowRun ops windowInit = some s →
      (∀ p, p <+: ops → 0 ≤ liveWindows p ∧ liveWindows p < 2147483648) →
      s.windowCounter = liveWindows ops ∧
      (s.videoInitialised = true ↔ 0 < liveWindows ops) := by
  induction ops using List.reverseRecOn with
  | nil =>
    intro s hrun _
    simp only [windowRun, Option.some.injEq] at hrun
    subst hrun
    simp [windowInit, liveWindows]
  | append_singleton p op ih =>
    intro s hrun hpre
    rw [windowRun_snoc] at hrun
    obtain ⟨sp, hsp, hstep⟩ := Option.bind_eq_some.mp hrun
    obtain ⟨r, hr, hrs⟩ := Option.map_eq_some'.mp hstep
    obtain ⟨sq, calls⟩ := r
    simp only at hrs
    subst hrs
    have hp : ∀ q, q <+: p → 0 ≤ liveWindows q ∧ liveWindows q < 2147483648 :=
      fun q hq => hpre q (hq.trans (List.prefix_append p [op]))
    obtain ⟨ic, iv⟩ := ih sp hsp hp
    have hfull := hpre (p ++ [op]) (List.prefix_refl _)
    have hlive : liveWindows (p ++ [op]) = liveWindows p + (if op.isCreate then 1 else -1) := by
      rw [liveWindows_append]; simp [liveWindows]
    rw [hlive] at hfull ⊢
    obtain ⟨h1, h2, _, _⟩ := windowStep_spec op sp sq calls (liveWindows p) hr ic iv
      (hp p (List.prefix_refl _)).1 hfull.1 hfull.2
    exact ⟨h1, by rw [← h1]; exact h2⟩

/-- C10 (amended): starting from `windowCounter = 0` with the video subsystem not initialised,
for every sequence of successful `Window_Create` / `Window_Destroy` calls in which every
prefix has at least as many creates as destroys and fewer than 2^31 live windows: after each
call `windowCounter` is the number of live windows (so it is not negative), the call invokes
`SDL_VideoInit` exactly when it is a create that finds the counter at 0, invokes
`SDL_VideoQuit` exactly when it is a destroy that brings the counter to 0, and the video
subsystem is initialised exactly when `windowCounter > 0`. -/
theorem windowCounter_tracks_live (ops : List WindowOp)
    (hok : (windowRun ops windowInit).isSome = true)
    (hpre : ∀ p, p <+: ops → 0 ≤ liveWindows p ∧ liveWindows p < 2147483648) :
    ∀ p op, p ++ [op] <+: ops →
      ∃ sp sq calls, windowRun p windowInit = some sp ∧
        windowStep op sp = some (sq, calls) ∧
        windowRun (p ++ [op]) windowInit = some sq ∧
        sq.windowCounter = liveWindows (p ++ [op]) ∧
        0 ≤ sq.windowCounter ∧
        (SDLCall.SDL_VideoInit ∈ calls ↔ (op.isCreate = true ∧ sp.windowCounter = 0)) ∧
        (SDLCall.SDL_VideoQuit ∈ calls ↔ (op.isCreate = false ∧ sq.windowCounter = 0)) ∧
        (sq.videoInitialised = true ↔ 0 < sq.windowCounter) := by
  intro p op hpo
  obtain ⟨rest, hrest⟩ := hpo
  have hsome : (windowRun (p ++ [op]) windowInit).isSome = true := by
    rw [← hrest, windowRun_append] at hok
    cases h : windowRun (p ++ [op]) windowInit with
    | none => rw [h] at hok; simp at hok
    | some _ => rfl
  obtain ⟨sq, hsq⟩ := Option.isSome_iff_exists.mp hsome
  have hrun := hsq
  rw [windowRun_snoc] at hrun
  obtain ⟨sp, hsp, hstep⟩ := Option.bind_eq_some.mp hrun
  obtain ⟨r, hr, hrs⟩ := Option.map_eq_some'.mp hstep
  obtain ⟨sq1, calls⟩ := r
  simp only at hrs
  subst hrs
  have hpo1 : p ++ [op] <+: ops := ⟨rest, hrest⟩
  have hp : ∀ q, q <+: p → 0 ≤ liveWindows q ∧ liveWindows q < 2147483648 :=
    fun q hq => hpre q ((hq.trans (List.prefix_append p [op])).trans hpo1)
  obtain ⟨ic, iv⟩ := windowRun_invariant p sp hsp hp
  have hfull := hpre (p ++ [op]) hpo1
  have hlive : liveWindows (p ++ [op]) = liveWindows p + (if op.isCreate then 1 else -1) := by
    rw [liveWindows_append]; simp [liveWindows]
  rw [hlive] at hfull ⊢
  obtain ⟨h1, h2, h3, h4⟩ := windowStep_spec op sp sq1 calls (liveWindows p) hr ic iv
    (hp p (List.prefix_refl _)).1 hfull.1 hfull.2
  exact ⟨sp, sq1, calls, hsp, hr, hsq, h1, by rw [h1]; exact hfull.1, h3, h4, h2⟩

/-- C10 (amended) at a concrete input: two creates followed by two destroys, observed at the
last call. -/
theorem windowCounter_tracks_live_witness :
    ((windowRun [.create sdlOk, .create sdlOk, .destroy ⟨some 1, some 2⟩,
        .destroy ⟨some 1, some 2⟩] windowInit).isSome = true ∧
      ∀ q ∈ List.inits [WindowOp.create sdlOk, .create sdlOk, .destroy ⟨some 1, some 2⟩,
        .destroy ⟨some 1, some 2⟩], 0 ≤ liveWindows q ∧ liveWindows q < 2147483648) ∧
    ∃ sp sq calls,
      windowRun [.create sdlOk, .create sdlOk, .destroy ⟨some 1, some 2⟩] windowInit = some sp ∧
      windowStep (.destroy ⟨some 1, some 2⟩) sp = some (sq, calls) ∧
      windowRun ([.create sdlOk, .create sdlOk, .destroy ⟨some 1, some 2⟩]
        ++ [.destroy ⟨some 1, some 2⟩]) windowInit = some sq ∧
      sq.windowCounter = liveWindows ([.create sdlOk, .create sdlOk, .destroy ⟨some 1, some 2⟩]
        ++ [.destroy ⟨some 1, some 2⟩]) ∧
      0 ≤ sq.windowCounter ∧
      (SDLCall.SDL_VideoInit ∈ calls ↔
        ((WindowOp.destroy ⟨some 1, some 2⟩).isCreate = true ∧ sp.windowCounter = 0)) ∧
      (SDLCall.SDL_VideoQuit ∈ calls ↔
        ((WindowOp.destroy ⟨some 1, some 2⟩).isCreate = false ∧ sq.windowCounter = 0)) ∧
      (sq.videoInitialised = true ↔ 0 < sq.windowCounter) :=
  ⟨by decide,
    windowCounter_tracks_live
      [.create sdlOk, .create sdlOk, .destroy ⟨some 1, some 2⟩, .destroy ⟨some 1, some 2⟩]
      (by decide)
      (fun p hp => (by decide : ∀ q ∈ List.inits
          [WindowOp.create sdlOk, .create sdlOk, .destroy ⟨some 1, some 2⟩,
            .destroy ⟨some 1, some 2⟩],
          0 ≤ liveWindows q ∧ liveWindows q < 2147483648) p ((List.mem_inits _ _).2 hp))
      [.create sdlOk, .create sdlOk, .destroy ⟨some 1, some 2⟩] (.destroy ⟨some 1, some 2⟩)
      (List.prefix_refl _)⟩

/-- The state after `n` successful creates, for `n` up to `2^31 - 1`. -/
theorem windowRun_replicate_create (n : Nat) (hn : n ≤ 2147483647) :
    windowRun (List.replicate n (WindowOp.create sdlOk)) windowInit
      = some ⟨(n : Int), decide (0 < n)⟩ := by
  induction n with
  | zero => rfl
  | succ k ih =>
    rw [List.replicate_succ', windowRun_snoc, ih (by omega)]
    simp only [Option.some_bind, windowStep, Window_Create, sdlOk]
    rw [wrap32_of_range _ (by omega) (by omega)]
    by_cases hk : k = 0
    · subst hk; simp
    · have : (k : Int) ≠ 0 := by omega
      have hk' : 0 < k := by omega
      simp [this, hk']

/-- The live count of `n` creates is `n`. -/
theorem liveWindows_replicate_create (n : Nat) (env : SDLResults) :
    liveWindows (List.replicate n (WindowOp.create env)) = n := by
  induction n with
  | zero => rfl
  | succ k ih =>
    rw [List.replicate_succ]
    simp only [liveWindows, WindowOp.isCreate, if_true, ih]
    push_cast; ring

/-- C10 as stated fails: 2^31 successful `Window_Create` calls from the initial state form a
sequence in which no prefix has more destroys than creates; 2^31 windows are live, but the
32-bit `windowCounter` has wrapped to -2^31, so it is negative and differs from the number of
live windows. -/
theorem windowCounter_wraps_at_int_max :
    (windowRun (List.replicate 2147483648 (WindowOp.create sdlOk)) windowInit).isSome = true ∧
    (∀ p, p <+: List.replicate 2147483648 (WindowOp.create sdlOk) → 0 ≤ liveWindows p) ∧
    liveWindows (List.replicate 2147483648 (WindowOp.create sdlOk)) = 2147483648 ∧
    ∃ s, windowRun (List.replicate 2147483648 (WindowOp.create sdlOk)) windowInit = some s ∧
      s.windowCounter = -2147483648 ∧ s.windowCounter < 0 ∧
      s.windowCounter ≠ liveWindows (List.replicate 2147483648 (WindowOp.create sdlOk)) := by
  have hrun : windowRun (List.replicate 2147483648 (WindowOp.create sdlOk)) windowInit
      = some ⟨-2147483648, true⟩ := by
    have e : (2147483648 : Nat) = 2147483647 + 1 := rfl
    rw [e, List.replicate_succ', windowRun_snoc, windowRun_replicate_create _ (le_refl _)]
    decide
  have hlive : liveWindows (List.replicate 2147483648 (WindowOp.create sdlOk)) = 2147483648 := by
    rw [liveWindows_replicate_create]; rfl
  refine ⟨by rw [hrun]; rfl, ?_, hlive, ⟨-2147483648, true⟩, hrun, rfl, by decide, ?_⟩
  · intro p hp
    obtain ⟨t, ht⟩ := hp
    have hall : ∀ x ∈ p, x = WindowOp.create sdlOk := fun x hx =>
      List.eq_of_mem_replicate (ht ▸ List.mem_append_left t hx)
    rw [List.eq_replicate_of_mem hall, liveWindows_replicate_create]; omega
  · rw [hlive]; decide

end PixelForge
